import Mathlib

/-!
Verification of the CXCollections allocator engine (`Allocator.hpp`).

This file shallowly embeds the segregated free-list allocation engine of the
CXCollections library: the growable pool allocator
(`_PoolAllocatorImplementation`), the fixed-capacity pool
(`FixedPoolAllocator`), and the size-class dispatch of the block allocator
(`_BlockAllocatorImplementation`).

Modelling conventions:
* Addresses and sizes are natural numbers (byte addresses on a 64-bit
  platform: `sizeof(_::Node) = 8`, `sizeof(_::Block) = 16`).
* The system allocator (`::operator new(bytes, align_val)`) is modelled as a
  bump allocator over fresh memory: it returns the least multiple of the
  alignment that is at or above a running high-water mark, so returned
  regions are aligned and pairwise disjoint, exactly the guarantee the C++
  runtime provides.  The high-water mark starts at a nonzero base so that the
  address 0 plays the role of the null pointer only.
* The in-memory singly linked free list (a `_::Node` chain threaded through
  free slots) is represented by the list of its slot addresses in chain
  order; pushing/popping the head of that list is exactly the pointer
  update the C++ performs.  The threading loop in `malloc` iterates a
  `value_type*`, so consecutive slots are `sizeof(T)` apart; when
  `sizeof(T) < sizeof(_::Node)` the 8-byte link writes overlap one another
  and the chain this list describes is not what memory then holds, so every
  theorem about a running pool carries the hypothesis
  `nodeSize ≤ elemSize` (the spec's own data-model invariant).  The doubly
  linked block chain (`this->data` pointing at the most recent block,
  `prev` links walking back in time) is represented by the list of block
  start addresses, most recent first.
* Code whose C++ execution would fail an `assert` or dereference a null
  pointer returns `none`.
-/

namespace CXCollections

/-- Size of `_::Node` — one pointer width on the 64-bit platform. -/
def nodeSize : Nat := 8

/-- Size of `_::Block` — two pointer widths (`prev`, `next`). -/
def blockHeaderSize : Nat := 16

/-- The slot stride
`data_size = sizeof(value_type) < sizeof(_::Node) ? sizeof(_::Node) : sizeof(value_type)`
(`_PoolAllocatorImplementation::data_size`, also `FixedPoolAllocator::data_size`). -/
def data_size (elemSize : Nat) : Nat :=
  if elemSize < nodeSize then nodeSize else elemSize

/-- The aligned system allocator: the least multiple of `alignment` at or
above the current high-water mark `n`. -/
def alignUp (alignment n : Nat) : Nat :=
  ((n + alignment - 1) / alignment) * alignment

/-- The template parameters of one pool instantiation:
`_PoolAllocatorImplementation<T, alignment, capacity, Storage>` with
`elemSize = sizeof(T)`. -/
structure Config where
  elemSize : Nat
  alignment : Nat
  capacity : Nat
deriving Repr, DecidableEq

/-- Per-slot stride of the pool instantiated at `cfg`. -/
def Config.dataSize (cfg : Config) : Nat := data_size cfg.elemSize

/-- The `static_assert(capacity != 0, "type too large for default block capacity")`
at the top of `_PoolAllocatorImplementation` — the only compile-time
configuration check the pool performs. -/
def capacity_static_assert (capacity : Nat) : Bool := capacity != 0

namespace Pool

/-- Pool state: `this->data` (block chain, most recently allocated block
first; `[]` is the null pointer), `this->next` (the free-list chain, head
first), plus the system allocator's high-water mark. -/
structure State where
  blocks : List Nat
  freeList : List Nat
  sysNext : Nat
deriving Repr, DecidableEq

/-- A pool before its first allocation: `data = nullptr`, `next = nullptr`
(lazy growth).  The system heap base is an arbitrary nonzero address. -/
def fresh : State := ⟨[], [], 4096⟩

/-- The addresses `malloc`'s threading loop writes its `_::Node` links at:
the loop iterates a `value_type*` from `data_begin = block + 1`, so write
`i` lands at `addr + sizeof(_::Block) + i * sizeof(T)` — the stride is
`sizeof(T)`, not `data_size` — and stores a pointer to the following
address (the last stores null).  When `sizeof(_::Node) ≤ sizeof(T)` the
writes are disjoint and in chain order the free list is exactly this list;
when `sizeof(T) < sizeof(_::Node)` the 8-byte writes overlap and clobber
one another (the C3 theorem exhibits this), so theorems about pool
execution assume `nodeSize ≤ elemSize`. -/
def freeNodes (cfg : Config) (n addr : Nat) : List Nat :=
  (List.range n).map (fun i => addr + blockHeaderSize + i * cfg.elemSize)

/-- The slot addresses of one full block of the pool at `cfg` (stride
`sizeof(T)`, see `freeNodes`). -/
def slotAddrs (cfg : Config) (addr : Nat) : List Nat :=
  freeNodes cfg cfg.capacity addr

/-- Result of `_PoolAllocatorImplementation::malloc`: the new block address
(`this->data`), the free-list chain written over its slots (`this->next`),
and the advanced system high-water mark. -/
structure MallocRet where
  addr : Nat
  nodes : List Nat
  sysEnd : Nat
deriving Repr, DecidableEq

/-- The member `_PoolAllocatorImplementation::malloc(n)`: allocate
`bytes = sizeof(_::Block) + data_size * n` aligned storage (the request is
padded to `data_size` per slot), zero the new block's `prev`/`next`, and
thread a free list across the slots — at stride `sizeof(T)`, see
`freeNodes`. -/
def malloc (cfg : Config) (n sysNext : Nat) : MallocRet :=
  let addr := alignUp cfg.alignment sysNext
  ⟨addr, freeNodes cfg n addr, addr + (blockHeaderSize + cfg.dataSize * n)⟩

/-- The growth path inside `allocate`: `malloc(capacity)` followed by
threading the new block onto the chain (`block_new->prev = block_old;
block_old->next = block_new`).  The free list was null on entry, so
`malloc` overwriting `this->next` with the new block's chain is the whole
new free list. -/
def grow (cfg : Config) (s : State) : State :=
  let m := malloc cfg cfg.capacity s.sysNext
  ⟨m.addr :: s.blocks, m.nodes, m.sysEnd⟩

/-- The member `_PoolAllocatorImplementation::allocate(n)`: asserts `n == 1`; grows a
new block when the free list is null; pops the free-list head.  `none`
models a failed assert, or the null-pointer dereference of `cur->next`
when the free list is still null after growth (only possible for
`capacity = 0`, which the `static_assert` already rejects). -/
def allocate (cfg : Config) (n : Nat) (s : State) : Option (State × Nat) :=
  if n = 1 then
    let s1 := if s.freeList.isEmpty then grow cfg s else s
    match s1.freeList with
    | cur :: rest => some (⟨s1.blocks, rest, s1.sysNext⟩, cur)
    | [] => none
  else none

/-- The member `_PoolAllocatorImplementation::deallocate(p, n)`: push `p` on the free
list (`next_new->next = next_old; this->next = next_new`).  The count `n`
is never read. -/
def deallocate (p n : Nat) (s : State) : State :=
  ⟨s.blocks, p :: s.freeList, s.sysNext⟩

/-- The member `_PoolAllocatorImplementation::find_block(p)`: starting at `this->data`,
walk the chain **while `block->prev != nullptr`**, testing
`block < p && p < block + sizeof(_::Block) * data_size * capacity`
(the range end is that literal product in the source), returning the first
block whose range contains `p`, else null.  The terminal (oldest) block is
never tested.  `none` on an empty chain models the failed `assert(block)`. -/
def find_block (cfg : Config) (p : Nat) : List Nat → Option Nat
  | [] => none
  | b :: rest =>
    match rest with
    | [] => none
    | _ :: _ =>
      if b < p ∧ p < b + blockHeaderSize * cfg.dataSize * cfg.capacity then some b
      else find_block cfg p rest

/-- Repeated `allocate(1)`, collecting the returned pointers in call order. -/
def allocN (cfg : Config) : Nat → State → Option (State × List Nat)
  | 0, s => some (s, [])
  | Nat.succ k, s =>
    match allocate cfg 1 s with
    | some (s1, p) =>
      match allocN cfg k s1 with
      | some (s2, ps) => some (s2, p :: ps)
      | none => none
    | none => none

/-- One client operation against a pool: an `allocate(1)` call, or a
`deallocate` of the `i`-th currently live (issued and not yet freed)
pointer. -/
inductive Op where
  | alloc : Op
  | free : Nat → Op
deriving Repr, DecidableEq

/-- One step of a client trace: the pool state paired with the list of live
pointers.  `free i` on an out-of-range index is an invalid trace (`none`). -/
def step (cfg : Config) (st : State × List Nat) : Op → Option (State × List Nat)
  | Op.alloc =>
    match allocate cfg 1 st.1 with
    | some (s1, p) => some (s1, p :: st.2)
    | none => none
  | Op.free i =>
    match st.2[i]? with
    | some p => some (deallocate p 1 st.1, st.2.eraseIdx i)
    | none => none

/-- Run a trace of client operations from a given state. -/
def runFrom (cfg : Config) : State × List Nat → List Op → Option (State × List Nat)
  | st, [] => some st
  | st, op :: ops =>
    match step cfg st op with
    | some st1 => runFrom cfg st1 ops
    | none => none

/-- Run a trace of client operations against a fresh pool. -/
def run (cfg : Config) (ops : List Op) : Option (State × List Nat) :=
  runFrom cfg (fresh, []) ops

end Pool

namespace FixedPool

/-- State of `FixedPoolAllocator`: `this->data` (the single block, allocated by
the constructor), `this->next` (free-list head chain), and the system
high-water mark (so that "no further system allocation" is observable). -/
structure State where
  dataAddr : Nat
  freeList : List Nat
  sysNext : Nat
deriving Repr, DecidableEq

/-- The addresses `FixedPoolAllocator::malloc`'s threading loop writes its
`_::Node` links at: slots start at the block start itself (the byte request
is `data_size * n`, no `_::Block` header) and the loop iterates a
`value_type*`, so the stride is `sizeof(T)`; as for the growing pool the
chain is what memory holds only when `nodeSize ≤ elemSize`. -/
def slotAddrs (cfg : Config) (addr : Nat) : List Nat :=
  (List.range cfg.capacity).map (fun i => addr + i * cfg.elemSize)

/-- The constructor `FixedPoolAllocator()`; it runs `this->malloc(capacity)`
exactly once: allocate `data_size * capacity` aligned bytes and thread the
free list across all `capacity` slots. -/
def fresh (cfg : Config) : State :=
  let addr := alignUp cfg.alignment 4096
  ⟨addr, slotAddrs cfg addr, addr + cfg.dataSize * cfg.capacity⟩

/-- The member `FixedPoolAllocator::allocate(n)`: asserts `n == 1` and
`next != nullptr` ("fixed pool out of memory"), then pops the free-list
head.  There is no growth path; `none` models a failed assert (the
documented contract violation). -/
def allocate (n : Nat) (s : State) : Option (State × Nat) :=
  if n = 1 then
    match s.freeList with
    | [] => none
    | cur :: rest => some (⟨s.dataAddr, rest, s.sysNext⟩, cur)
  else none

/-- The member `FixedPoolAllocator::deallocate(p, n)`: push `p` on the free list; the
count `n` is never read.  Identical to the growing pool's push. -/
def deallocate (p n : Nat) (s : State) : State :=
  ⟨s.dataAddr, p :: s.freeList, s.sysNext⟩

/-- Repeated `allocate(1)` on the fixed pool, collecting returned pointers. -/
def allocN : Nat → State → Option (State × List Nat)
  | 0, s => some (s, [])
  | Nat.succ k, s =>
    match allocate 1 s with
    | some (s1, p) =>
      match allocN k s1 with
      | some (s2, ps) => some (s2, p :: ps)
      | none => none
    | none => none

end FixedPool

namespace BlockAlloc

/-- The table `_BlockAllocatorStorage_Base::subblock_capacities` — the 22-entry
ascending table of power-of-two size-class capacities. -/
def subblock_capacities : List Nat :=
  [0x00000010, 0x00000020, 0x00000040, 0x00000080,
   0x00000100, 0x00000200, 0x00000400, 0x00000800,
   0x00001000, 0x00002000, 0x00004000, 0x00008000,
   0x00010000, 0x00020000, 0x00040000, 0x00080000,
   0x00100000, 0x00200000, 0x00400000, 0x00800000,
   0x01000000, 0x02000000]

/-- The class-selection scan
`size_t subblock_i = 0; while (n > subblock_capacities[subblock_i]) ++subblock_i;`
relative to the remaining suffix of the table: `some i` when the loop stops
at relative index `i`; `none` when `n` exceeds every remaining entry, i.e.
the C++ loop increments its index past the end of the array and its next
iteration reads out of bounds. -/
def scanIdx (n : Nat) : List Nat → Option Nat
  | [] => none
  | c :: rest => if c < n then (scanIdx n rest).map (· + 1) else some 0

/-- The class index computed at the top of
`_BlockAllocatorImplementation::allocate(n)`. -/
def allocate_class_index (n : Nat) : Option Nat :=
  scanIdx n subblock_capacities

/-- The class index recomputed (by the same loop, textually repeated) at the
top of `_BlockAllocatorImplementation::deallocate(p, n)`. -/
def deallocate_class_index (n : Nat) : Option Nat :=
  scanIdx n subblock_capacities

/-- The capacity of the class `allocate(n)` dispatches to. -/
def selected_capacity (n : Nat) : Option Nat :=
  (allocate_class_index n).bind (fun i => subblock_capacities[i]?)

end BlockAlloc

theorem dvd_alignUp (a n : Nat) : a ∣ alignUp a n :=
  dvd_mul_left a _

namespace Pool

theorem allocate_cons (cfg : Config) (s : State) (p : Nat) (rest : List Nat)
    (h : s.freeList = p :: rest) :
    allocate cfg 1 s = some (⟨s.blocks, rest, s.sysNext⟩, p) := by
  simp [allocate, h]

theorem allocN_pops (cfg : Config) :
    ∀ (k : Nat) (s : State), k ≤ s.freeList.length →
      allocN cfg k s = some (⟨s.blocks, s.freeList.drop k, s.sysNext⟩, s.freeList.take k) := by
  intro k
  induction k with
  | zero => intro s _; rfl
  | succ k ih =>
    intro s hk
    match hfl : s.freeList with
    | [] => rw [hfl] at hk; simp at hk
    | p :: rest =>
      rw [hfl] at hk
      have hpop := allocate_cons cfg s p rest hfl
      have hrec := ih ⟨s.blocks, rest, s.sysNext⟩ (by simpa using Nat.succ_le_succ_iff.mp hk)
      simp only [allocN, hpop, hrec, hfl, List.drop_succ_cons, List.take_succ_cons]

theorem grow_freeList_length (cfg : Config) (s : State) :
    (grow cfg s).freeList.length = cfg.capacity := by
  simp [grow, malloc, freeNodes]

theorem grow_blocks (cfg : Config) (s : State) :
    (grow cfg s).blocks = alignUp cfg.alignment s.sysNext :: s.blocks := rfl

theorem allocate_grow (cfg : Config) (s : State) (hs : s.freeList = [])
    (hc : 0 < cfg.capacity) :
    ∃ p rest, (grow cfg s).freeList = p :: rest ∧
      allocate cfg 1 s = some (⟨(grow cfg s).blocks, rest, (grow cfg s).sysNext⟩, p) := by
  match hfl : (grow cfg s).freeList with
  | [] =>
    have := grow_freeList_length cfg s
    rw [hfl] at this
    simp at this
    omega
  | p :: rest =>
    refine ⟨p, rest, rfl, ?_⟩
    simp [allocate, hs, hfl]

theorem runFrom_preserves (cfg : Config) (P : State × List Nat → Prop)
    (hstep : ∀ st op st1, P st → step cfg st op = some st1 → P st1) :
    ∀ (ops : List Op) (st st1 : State × List Nat),
      P st → runFrom cfg st ops = some st1 → P st1 := by
  intro ops
  induction ops with
  | nil => intro st st1 hP h; rw [runFrom] at h; exact Option.some.inj h ▸ hP
  | cons op ops ih =>
    intro st st1 hP h
    rw [runFrom] at h
    match hst : step cfg st op with
    | some st2 =>
      rw [hst] at h
      exact ih st2 st1 (hstep st op st2 hP hst) h
    | none => rw [hst] at h; exact absurd h (by simp)

theorem allocate_lengths (cfg : Config) (s s1 : State) (p : Nat)
    (h : allocate cfg 1 s = some (s1, p)) :
    s1.freeList.length + 1 + cfg.capacity * s.blocks.length
      = s.freeList.length + cfg.capacity * s1.blocks.length := by
  match hfl : s.freeList with
  | q :: rest =>
    rw [allocate_cons cfg s q rest hfl] at h
    injection Option.some.inj h with h1 h2
    subst h1
    simp
  | [] =>
    match hgl : (grow cfg s).freeList with
    | [] =>
      have hnone : allocate cfg 1 s = none := by simp [allocate, hfl, hgl]
      rw [hnone] at h
      exact absurd h (by simp)
    | q :: rest =>
      have hA : allocate cfg 1 s
          = some (⟨(grow cfg s).blocks, rest, (grow cfg s).sysNext⟩, q) := by
        simp [allocate, hfl, hgl]
      rw [hA] at h
      injection Option.some.inj h with h1 h2
      subst h1
      have hlen := grow_freeList_length cfg s
      rw [hgl] at hlen
      simp at hlen
      have hb : (grow cfg s).blocks.length = s.blocks.length + 1 := by
        simp [grow]
      simp [hb, Nat.mul_succ]
      omega

theorem step_inv (cfg : Config) (st st1 : State × List Nat) (op : Op)
    (hInv : st.1.freeList.length + st.2.length = cfg.capacity * st.1.blocks.length)
    (h : step cfg st op = some st1) :
    st1.1.freeList.length + st1.2.length = cfg.capacity * st1.1.blocks.length := by
  match op with
  | Op.alloc =>
    match hA : allocate cfg 1 st.1 with
    | none => simp [step, hA] at h
    | some (s1, p) =>
      simp only [step, hA, Option.some.injEq] at h
      subst h
      have hL := allocate_lengths cfg st.1 s1 p hA
      simp only [List.length_cons]
      omega
  | Op.free i =>
    match hgi : st.2[i]? with
    | none => simp [step, hgi] at h
    | some p =>
      simp only [step, hgi, Option.some.injEq] at h
      subst h
      have hi : i < st.2.length := (List.getElem?_eq_some.mp hgi).1
      simp only [deallocate, List.length_cons, List.length_eraseIdx, hi, if_pos]
      omega

theorem allocN_add (cfg : Config) (a b : Nat) :
    ∀ s : State, allocN cfg (a + b) s =
      match allocN cfg a s with
      | some (s1, ps) =>
        match allocN cfg b s1 with
        | some (s2, qs) => some (s2, ps ++ qs)
        | none => none
      | none => none := by
  induction a with
  | zero =>
    intro s
    rw [Nat.zero_add]
    match hb : allocN cfg b s with
    | none => simp [allocN, hb]
    | some (s2, qs) => simp [allocN, hb]
  | succ a ih =>
    intro s
    rw [Nat.succ_add]
    match hA : allocate cfg 1 s with
    | none => simp [allocN, hA]
    | some (s1, p) =>
      simp only [allocN, hA, ih s1]
      match h1 : allocN cfg a s1 with
      | none => simp
      | some (s2, ps) =>
        match h2 : allocN cfg b s2 with
        | none => simp [h2]
        | some (s3, qs) => simp [h2]

theorem allocN_grow (cfg : Config) (s : State) (hs : s.freeList = [])
    (k : Nat) (hk : k + 1 ≤ cfg.capacity) :
    allocN cfg (k + 1) s =
      some (⟨(grow cfg s).blocks, (grow cfg s).freeList.drop (k + 1), (grow cfg s).sysNext⟩,
            (grow cfg s).freeList.take (k + 1)) := by
  obtain ⟨p, rest, hgl, hA⟩ := allocate_grow cfg s hs (by omega)
  have hk2 : k ≤ rest.length := by
    have hlen := grow_freeList_length cfg s
    rw [hgl] at hlen
    simp at hlen
    omega
  have hrec := allocN_pops cfg k ⟨(grow cfg s).blocks, rest, (grow cfg s).sysNext⟩
    (by simpa using hk2)
  simp only [allocN, hA, hrec, hgl, List.drop_succ_cons, List.take_succ_cons]

theorem allocate_cases (cfg : Config) (s s1 : State) (p : Nat)
    (h : allocate cfg 1 s = some (s1, p)) :
    (s.freeList = p :: s1.freeList ∧ s1.blocks = s.blocks ∧ s1.sysNext = s.sysNext) ∨
    (s.freeList = [] ∧ (grow cfg s).freeList = p :: s1.freeList ∧
      s1.blocks = (grow cfg s).blocks ∧ s1.sysNext = (grow cfg s).sysNext) := by
  match hfl : s.freeList with
  | q :: rest =>
    rw [allocate_cons cfg s q rest hfl] at h
    injection Option.some.inj h with h1 h2
    subst h1
    subst h2
    exact Or.inl ⟨rfl, rfl, rfl⟩
  | [] =>
    match hgl : (grow cfg s).freeList with
    | [] =>
      have hnone : allocate cfg 1 s = none := by simp [allocate, hfl, hgl]
      rw [hnone] at h
      exact absurd h (by simp)
    | q :: rest =>
      have hA : allocate cfg 1 s
          = some (⟨(grow cfg s).blocks, rest, (grow cfg s).sysNext⟩, q) := by
        simp [allocate, hfl, hgl]
      rw [hA] at h
      injection Option.some.inj h with h1 h2
      subst h1
      subst h2
      exact Or.inr ⟨rfl, rfl, rfl, rfl⟩

theorem mem_grow_freeList (cfg : Config) (s : State) (q : Nat)
    (hq : q ∈ (grow cfg s).freeList) :
    ∃ i, i < cfg.capacity ∧
      q = alignUp cfg.alignment s.sysNext + blockHeaderSize + i * cfg.elemSize := by
  simp only [grow, malloc, freeNodes, List.mem_map, List.mem_range] at hq
  obtain ⟨i, hi, hqe⟩ := hq
  exact ⟨i, hi, hqe.symm⟩

theorem step_blocks_aligned (cfg : Config) (st st1 : State × List Nat) (op : Op)
    (hP : ∀ b ∈ st.1.blocks, cfg.alignment ∣ b)
    (h : step cfg st op = some st1) :
    ∀ b ∈ st1.1.blocks, cfg.alignment ∣ b := by
  match op with
  | Op.alloc =>
    match hA : allocate cfg 1 st.1 with
    | none => simp [step, hA] at h
    | some (s1, p) =>
      simp only [step, hA, Option.some.injEq] at h
      subst h
      rcases allocate_cases cfg st.1 s1 p hA with ⟨_, h2, _⟩ | ⟨_, _, h2, _⟩
      · rw [h2]; exact hP
      · rw [h2, grow_blocks]
        intro b hb
        rcases List.mem_cons.mp hb with rfl | hb2
        · exact dvd_alignUp _ _
        · exact hP b hb2
  | Op.free i =>
    match hgi : st.2[i]? with
    | none => simp [step, hgi] at h
    | some p =>
      simp only [step, hgi, Option.some.injEq] at h
      subst h
      exact hP

theorem step_ptrs_aligned (cfg : Config)
    (hh : cfg.alignment ∣ blockHeaderSize) (hd : cfg.alignment ∣ cfg.elemSize)
    (st st1 : State × List Nat) (op : Op)
    (hP : (∀ p ∈ st.1.freeList, cfg.alignment ∣ p) ∧ (∀ p ∈ st.2, cfg.alignment ∣ p))
    (h : step cfg st op = some st1) :
    (∀ p ∈ st1.1.freeList, cfg.alignment ∣ p) ∧ (∀ p ∈ st1.2, cfg.alignment ∣ p) := by
  match op with
  | Op.alloc =>
    match hA : allocate cfg 1 st.1 with
    | none => simp [step, hA] at h
    | some (s1, p) =>
      simp only [step, hA, Option.some.injEq] at h
      subst h
      rcases allocate_cases cfg st.1 s1 p hA with ⟨h1, _, _⟩ | ⟨_, h1, _, _⟩
      · refine ⟨fun q hq => hP.1 q (h1 ▸ List.mem_cons_of_mem _ hq), fun q hq => ?_⟩
        rcases List.mem_cons.mp hq with rfl | hq2
        · exact hP.1 q (h1 ▸ List.mem_cons_self _ _)
        · exact hP.2 q hq2
      · have hg : ∀ q ∈ (grow cfg st.1).freeList, cfg.alignment ∣ q := by
          intro q hq
          obtain ⟨i, _, rfl⟩ := mem_grow_freeList cfg st.1 q hq
          exact dvd_add (dvd_add (dvd_alignUp _ _) hh) (Dvd.dvd.mul_left hd i)
        refine ⟨fun q hq => hg q (h1 ▸ List.mem_cons_of_mem _ hq), fun q hq => ?_⟩
        rcases List.mem_cons.mp hq with rfl | hq2
        · exact hg q (h1 ▸ List.mem_cons_self _ _)
        · exact hP.2 q hq2
  | Op.free i =>
    match hgi : st.2[i]? with
    | none => simp [step, hgi] at h
    | some p =>
      simp only [step, hgi, Option.some.injEq] at h
      subst h
      have hpm : p ∈ st.2 := by
        obtain ⟨hlt, hget⟩ := List.getElem?_eq_some.mp hgi
        exact hget ▸ List.getElem_mem hlt
      refine ⟨fun q hq => ?_, fun q hq => hP.2 q (List.eraseIdx_subset _ _ hq)⟩
      rcases List.mem_cons.mp hq with rfl | hq2
      · exact hP.2 q hpm
      · exact hP.1 q hq2

theorem run_inv (cfg : Config) (ops : List Op) (s : State) (live : List Nat)
    (h : run cfg ops = some (s, live)) :
    s.freeList.length + live.length = cfg.capacity * s.blocks.length :=
  runFrom_preserves cfg
    (fun st => st.1.freeList.length + st.2.length = cfg.capacity * st.1.blocks.length)
    (fun st op st1 => step_inv cfg st st1 op) ops (fresh, []) (s, live) (by simp [fresh]) h

end Pool

/-- C5: for a pool whose element type is at least the 8-byte node (the
spec's data-model invariant; smaller types hit the C3 threading overlap
and have no well-formed free list to conserve), in any state reachable by
a valid trace of allocations and deallocations of live pointers, the
number of successful `allocate` calls achievable before the free list is
exhausted (and the next growth triggers) — i.e. the free-list length,
which that many `allocate` calls pop one by one without touching the
block chain — equals the sum of the capacities of all blocks grown so far
minus the number of live pointers. -/
theorem C5_free_list_conservation (cfg : Config) (ops : List Pool.Op)
    (s : Pool.State) (live : List Nat) (hnode : nodeSize ≤ cfg.elemSize)
    (h : Pool.run cfg ops = some (s, live)) :
    s.freeList.length + live.length = cfg.capacity * s.blocks.length ∧
    s.freeList.length = cfg.capacity * s.blocks.length - live.length ∧
    Pool.allocN cfg s.freeList.length s = some (⟨s.blocks, [], s.sysNext⟩, s.freeList) := by
  have hI := Pool.run_inv cfg ops s live h
  refine ⟨hI, by omega, ?_⟩
  have hp := Pool.allocN_pops cfg s.freeList.length s (le_refl _)
  simpa using hp

/-- C5 witness: the trace alloc, alloc, free-first on an 8-byte-element,
capacity-2 pool reaches one grown block, free list `[4120]`, one live
pointer — and the conservation equation holds there. -/
theorem C5_free_list_conservation_witness :
    nodeSize ≤ (⟨8, 16, 2⟩ : Config).elemSize ∧
    Pool.run ⟨8, 16, 2⟩ [Pool.Op.alloc, Pool.Op.alloc, Pool.Op.free 0] =
      some (⟨[4096], [4120], 4128⟩, [4112]) ∧
    ((⟨[4096], [4120], 4128⟩ : Pool.State).freeList.length + ([4112] : List Nat).length
        = (⟨8, 16, 2⟩ : Config).capacity * (⟨[4096], [4120], 4128⟩ : Pool.State).blocks.length ∧
      (⟨[4096], [4120], 4128⟩ : Pool.State).freeList.length
        = (⟨8, 16, 2⟩ : Config).capacity * (⟨[4096], [4120], 4128⟩ : Pool.State).blocks.length
            - ([4112] : List Nat).length ∧
      Pool.allocN ⟨8, 16, 2⟩ (⟨[4096], [4120], 4128⟩ : Pool.State).freeList.length
          ⟨[4096], [4120], 4128⟩
        = some (⟨[4096], [], 4128⟩, [4120])) :=
  ⟨by decide, by decide,
   C5_free_list_conservation ⟨8, 16, 2⟩ [Pool.Op.alloc, Pool.Op.alloc, Pool.Op.free 0]
     ⟨[4096], [4120], 4128⟩ [4112] (by decide) (by decide)⟩

/-- C6: on a fresh pool of per-block capacity `c > 0` whose element type is
at least the 8-byte node (the spec's data-model invariant; the free-list
chain only exists in memory then) and with no intervening deallocations,
the 1st `allocate` grows the first block; every prefix of `j ≤ c`
allocations leaves exactly that one block in the chain (no other call
grows) and has returned the first `j` slots of that block; the `c`
allocations return all `c` slots individually (free list empty, block
chain still one block); and the `(c+1)`-th call triggers exactly one new
block (chain length 2). -/
theorem C6_growth_correctness (cfg : Config) (hnode : nodeSize ≤ cfg.elemSize)
    (hc : 0 < cfg.capacity) :
    (∃ s1 p1, Pool.allocate cfg 1 Pool.fresh = some (s1, p1) ∧
        s1.blocks = [alignUp cfg.alignment 4096]) ∧
    (∀ j, 1 ≤ j → j ≤ cfg.capacity →
        Pool.allocN cfg j Pool.fresh =
          some (⟨[alignUp cfg.alignment 4096],
                 (Pool.slotAddrs cfg (alignUp cfg.alignment 4096)).drop j,
                 (Pool.grow cfg Pool.fresh).sysNext⟩,
                (Pool.slotAddrs cfg (alignUp cfg.alignment 4096)).take j)) ∧
    Pool.allocN cfg cfg.capacity Pool.fresh =
      some (⟨[alignUp cfg.alignment 4096], [], (Pool.grow cfg Pool.fresh).sysNext⟩,
            Pool.slotAddrs cfg (alignUp cfg.alignment 4096)) ∧
    (∃ s2 ps, Pool.allocN cfg (cfg.capacity + 1) Pool.fresh = some (s2, ps) ∧
        s2.blocks.length = 2) := by
  have hslotlen : (Pool.slotAddrs cfg (alignUp cfg.alignment 4096)).length = cfg.capacity := by
    simp [Pool.slotAddrs, Pool.freeNodes]
  have hmain : ∀ j, 1 ≤ j → j ≤ cfg.capacity →
      Pool.allocN cfg j Pool.fresh =
        some (⟨[alignUp cfg.alignment 4096],
               (Pool.slotAddrs cfg (alignUp cfg.alignment 4096)).drop j,
               (Pool.grow cfg Pool.fresh).sysNext⟩,
              (Pool.slotAddrs cfg (alignUp cfg.alignment 4096)).take j) := by
    intro j h1 h2
    obtain ⟨k, rfl⟩ : ∃ k, j = k + 1 := ⟨j - 1, by omega⟩
    exact Pool.allocN_grow cfg Pool.fresh rfl k h2
  have hfull : Pool.allocN cfg cfg.capacity Pool.fresh =
      some (⟨[alignUp cfg.alignment 4096], [], (Pool.grow cfg Pool.fresh).sysNext⟩,
            Pool.slotAddrs cfg (alignUp cfg.alignment 4096)) := by
    have h3 := hmain cfg.capacity hc (le_refl _)
    rwa [List.drop_eq_nil_of_le (by omega), List.take_of_length_le (by omega)] at h3
  refine ⟨?_, hmain, hfull, ?_⟩
  · obtain ⟨p, rest, hgl, hA⟩ := Pool.allocate_grow cfg Pool.fresh rfl hc
    exact ⟨_, p, hA, rfl⟩
  · have hsplit := Pool.allocN_add cfg cfg.capacity 1 Pool.fresh
    rw [hfull] at hsplit
    obtain ⟨p2, rest2, hgl2, hA2⟩ := Pool.allocate_grow cfg
      ⟨[alignUp cfg.alignment 4096], [], (Pool.grow cfg Pool.fresh).sysNext⟩ rfl hc
    refine ⟨⟨(Pool.grow cfg ⟨[alignUp cfg.alignment 4096], [],
        (Pool.grow cfg Pool.fresh).sysNext⟩).blocks, rest2,
        (Pool.grow cfg ⟨[alignUp cfg.alignment 4096], [],
        (Pool.grow cfg Pool.fresh).sysNext⟩).sysNext⟩,
      Pool.slotAddrs cfg (alignUp cfg.alignment 4096) ++ [p2], ?_, ?_⟩
    · have hone : Pool.allocN cfg 1
          ⟨[alignUp cfg.alignment 4096], [], (Pool.grow cfg Pool.fresh).sysNext⟩
          = some (⟨(Pool.grow cfg ⟨[alignUp cfg.alignment 4096], [],
              (Pool.grow cfg Pool.fresh).sysNext⟩).blocks, rest2,
              (Pool.grow cfg ⟨[alignUp cfg.alignment 4096], [],
              (Pool.grow cfg Pool.fresh).sysNext⟩).sysNext⟩, [p2]) := by
        simp only [Pool.allocN, hA2]
      rw [hsplit]
      simp [hone]
    · simp [Pool.grow]

/-- C6 witness: on an 8-byte-element, capacity-2 pool, the two allocations
pop both slots 4112 and 4120 of the single grown block at 4096, and the
third allocation makes the block chain two blocks long. -/
theorem C6_growth_correctness_witness :
    (∃ s1 p1, Pool.allocate ⟨8, 16, 2⟩ 1 Pool.fresh = some (s1, p1) ∧
        s1.blocks = [alignUp 16 4096]) ∧
    Pool.allocN ⟨8, 16, 2⟩ 2 Pool.fresh =
      some (⟨[alignUp 16 4096], [], (Pool.grow ⟨8, 16, 2⟩ Pool.fresh).sysNext⟩,
            Pool.slotAddrs ⟨8, 16, 2⟩ (alignUp 16 4096)) ∧
    (∃ s2 ps, Pool.allocN ⟨8, 16, 2⟩ 3 Pool.fresh = some (s2, ps) ∧
        s2.blocks.length = 2) := by
  have h := C6_growth_correctness ⟨8, 16, 2⟩ (by decide) (by decide)
  exact ⟨h.1, h.2.2.1, h.2.2.2⟩

namespace BlockAlloc

theorem scanIdx_isSome (n : Nat) :
    ∀ l : List Nat, (∃ c ∈ l, n ≤ c) → ∃ i, scanIdx n l = some i := by
  intro l
  induction l with
  | nil => intro h; simp at h
  | cons c rest ih =>
    intro h
    by_cases hc : c < n
    · obtain ⟨d, hd, hnd⟩ := h
      rcases List.mem_cons.mp hd with rfl | hd2
      · omega
      · obtain ⟨i, hi⟩ := ih ⟨d, hd2, hnd⟩
        exact ⟨i + 1, by simp [scanIdx, hc, hi]⟩
    · exact ⟨0, by simp [scanIdx, hc]⟩

theorem scanIdx_spec (n : Nat) :
    ∀ (l : List Nat) (i : Nat), scanIdx n l = some i →
      ∃ c, l[i]? = some c ∧ n ≤ c ∧
        ∀ j cj, j < i → l[j]? = some cj → cj < n := by
  intro l
  induction l with
  | nil => intro i h; simp [scanIdx] at h
  | cons c rest ih =>
    intro i h
    by_cases hc : c < n
    · simp only [scanIdx, if_pos hc] at h
      match hr : scanIdx n rest with
      | none => rw [hr] at h; simp at h
      | some i0 =>
        rw [hr] at h
        simp at h
        subst h
        obtain ⟨c0, hg, hnc, hall⟩ := ih i0 hr
        refine ⟨c0, by simpa using hg, hnc, ?_⟩
        intro j cj hj hgj
        match j with
        | 0 =>
          simp at hgj
          omega
        | j0 + 1 =>
          exact hall j0 cj (by omega) (by simpa using hgj)
    · simp only [scanIdx, if_neg hc] at h
      simp at h
      subst h
      exact ⟨c, by simp, by omega, fun j cj hj _ => absurd hj (Nat.not_lt_zero j)⟩

theorem scanIdx_mono (n1 n2 : Nat) (h12 : n1 ≤ n2) :
    ∀ (l : List Nat) (i2 : Nat), scanIdx n2 l = some i2 →
      ∃ i1, scanIdx n1 l = some i1 ∧ i1 ≤ i2 := by
  intro l
  induction l with
  | nil => intro i2 h; simp [scanIdx] at h
  | cons c rest ih =>
    intro i2 h
    by_cases hc2 : c < n2
    · simp only [scanIdx, if_pos hc2] at h
      match hr : scanIdx n2 rest with
      | none => rw [hr] at h; simp at h
      | some j2 =>
        rw [hr] at h
        simp at h
        subst h
        by_cases hc1 : c < n1
        · obtain ⟨j1, hj1, hle⟩ := ih j2 hr
          exact ⟨j1 + 1, by simp [scanIdx, hc1, hj1], by omega⟩
        · exact ⟨0, by simp [scanIdx, hc1], by omega⟩
    · simp only [scanIdx, if_neg hc2] at h
      simp at h
      subst h
      have hc1 : ¬c < n1 := by omega
      exact ⟨0, by simp [scanIdx, hc1], Nat.le_refl 0⟩

theorem subblock_capacities_pairwise :
    List.Pairwise (· ≤ ·) subblock_capacities := by decide

theorem subblock_capacities_mono (i j ci cj : Nat) (hij : i ≤ j)
    (hi : subblock_capacities[i]? = some ci)
    (hj : subblock_capacities[j]? = some cj) : ci ≤ cj := by
  rcases Nat.lt_or_ge i j with hlt | hge
  · obtain ⟨hil, hie⟩ := List.getElem?_eq_some.mp hi
    obtain ⟨hjl, hje⟩ := List.getElem?_eq_some.mp hj
    subst hie
    subst hje
    exact List.pairwise_iff_getElem.mp subblock_capacities_pairwise i j hil hjl hlt
  · have hij2 : i = j := by omega
    subst hij2
    rw [hi] at hj
    exact Nat.le_of_eq (Option.some.inj hj)

end BlockAlloc

/-- C8: for every request count `n` within the largest class capacity, the
scan in `allocate` stops at the smallest class index `i` with
`n ≤ subblock_capacities[i]` (every earlier entry is smaller than `n`);
`deallocate` recomputes the identical index from `n`; `allocate(10)`
selects class 0 and `allocate(17)` selects class 1; and the selection is
monotone: any `m ≥ n` is dispatched to a class of capacity at least the
one selected for `n`. -/
theorem C8_class_selection (n : Nat) (h : n ≤ 0x02000000) :
    BlockAlloc.deallocate_class_index n = BlockAlloc.allocate_class_index n ∧
    BlockAlloc.allocate_class_index 10 = some 0 ∧
    BlockAlloc.allocate_class_index 17 = some 1 ∧
    ∃ i c, BlockAlloc.allocate_class_index n = some i ∧
      BlockAlloc.subblock_capacities[i]? = some c ∧ n ≤ c ∧
      (∀ j cj, j < i → BlockAlloc.subblock_capacities[j]? = some cj → cj < n) ∧
      (∀ m cm, n ≤ m → BlockAlloc.selected_capacity m = some cm → c ≤ cm) := by
  refine ⟨rfl, by decide, by decide, ?_⟩
  obtain ⟨i, hi⟩ := BlockAlloc.scanIdx_isSome n BlockAlloc.subblock_capacities
    ⟨0x02000000, by decide, h⟩
  obtain ⟨c, hgc, hnc, hmin⟩ := BlockAlloc.scanIdx_spec n BlockAlloc.subblock_capacities i hi
  refine ⟨i, c, hi, hgc, hnc, hmin, ?_⟩
  intro m cm hnm hsel
  unfold BlockAlloc.selected_capacity at hsel
  match hm : BlockAlloc.allocate_class_index m with
  | none => rw [hm] at hsel; simp at hsel
  | some im =>
    rw [hm] at hsel
    simp at hsel
    obtain ⟨i1, hi1, hle⟩ := BlockAlloc.scanIdx_mono n m hnm BlockAlloc.subblock_capacities im hm
    have hii : i1 = i := by
      rw [hi] at hi1
      exact Option.some.inj hi1.symm
    subst hii
    exact BlockAlloc.subblock_capacities_mono i1 im c cm hle hgc hsel

/-- C8 witness: the theorem instantiated at `n = 10`. -/
theorem C8_class_selection_witness :
    BlockAlloc.deallocate_class_index 10 = BlockAlloc.allocate_class_index 10 ∧
    BlockAlloc.allocate_class_index 10 = some 0 ∧
    BlockAlloc.allocate_class_index 17 = some 1 ∧
    ∃ i c, BlockAlloc.allocate_class_index 10 = some i ∧
      BlockAlloc.subblock_capacities[i]? = some c ∧ 10 ≤ c ∧
      (∀ j cj, j < i → BlockAlloc.subblock_capacities[j]? = some cj → cj < 10) ∧
      (∀ m cm, 10 ≤ m → BlockAlloc.selected_capacity m = some cm → c ≤ cm) :=
  C8_class_selection 10 (by decide)

/-- C7: for every pool state and every pointer `p`, `deallocate(p, n)` pushes
`p` as the new free-list head, and the next `allocate` (no other
deallocation in between) pops exactly `p` back off, restoring the original
state — LIFO reuse. -/
theorem C7_lifo_reuse (cfg : Config) (s : Pool.State) (p n : Nat) :
    (Pool.deallocate p n s).freeList = p :: s.freeList ∧
    Pool.allocate cfg 1 (Pool.deallocate p n s) = some (s, p) :=
  ⟨rfl, rfl⟩

/-- C10: pool-level `deallocate` never reads its count argument — for every
state and pointer, any two counts produce identical resulting states, in
both the growing pool and the fixed pool. -/
theorem C10_deallocate_ignores_count (p n1 n2 : Nat) (s : Pool.State)
    (fs : FixedPool.State) :
    Pool.deallocate p n1 s = Pool.deallocate p n2 s ∧
    FixedPool.deallocate p n1 fs = FixedPool.deallocate p n2 fs :=
  ⟨rfl, rfl⟩

/-- C1 (code bug, as flagged by the spec itself): grow a capacity-1 pool to
three blocks (at 4096, 4128, 4160) and take `p = 4112`, the element slot of
the very first (oldest) block.  `p` lies inside the oldest block's element
region, yet `find_block` returns null, because its loop runs only while
`block->prev != nullptr` and so never range-tests the terminal block.
Moreover `find_block` computes the range end as
`block + sizeof(_::Block) * data_size * capacity` (a product, not
`header + capacity * data_size`), so the address 4200 — beyond every byte
the pool ever allocated (high-water mark 4184) — is reported as belonging
to block 4160. -/
theorem C1_find_block_defect :
    Pool.run ⟨8, 16, 1⟩ [Pool.Op.alloc, Pool.Op.alloc, Pool.Op.alloc] =
      some (⟨[4160, 4128, 4096], [], 4184⟩, [4176, 4144, 4112]) ∧
    Pool.find_block ⟨8, 16, 1⟩ 4112 [4160, 4128, 4096] = none ∧
    4096 + blockHeaderSize ≤ 4112 ∧
    4112 < 4096 + blockHeaderSize + 1 * data_size 8 ∧
    Pool.find_block ⟨8, 16, 1⟩ 4200 [4160, 4128, 4096] = some 4160 ∧
    4184 ≤ 4200 := by
  decide

/-- C2 (counterexample): a pool of 8-byte elements configured with alignment
64 returns, as its very first allocation, the pointer 4112 = block start
4096 + the 16-byte block header; the block start is 64-aligned but the
returned pointer satisfies `4112 % 64 = 16 ≠ 0`. -/
theorem C2_counterexample :
    Pool.run ⟨8, 64, 4⟩ [Pool.Op.alloc] =
      some (⟨[4096], [4120, 4128, 4136], 4144⟩, [4112]) ∧
    4096 % 64 = 0 ∧
    4112 % 64 = 16 := by
  decide

/-- C2 (amended): for a pool whose element type is at least the 8-byte node
(the spec's data-model invariant, under which the free-list model is
byte-exact), in any reachable state every block start returned by the
system allocator is alignment-aligned; and whenever the alignment divides
both the 16-byte block header and the element size (the slot stride),
every pointer the pool has returned (every live pointer) and every free
slot is alignment-aligned.  (Without that divisibility condition the slot
at index `k` sits at `block + 16 + k * sizeof(T)` and is in general
misaligned, as the counterexample shows.) -/
theorem C2_alignment_amended (cfg : Config) (ops : List Pool.Op) (s : Pool.State)
    (live : List Nat) (hnode : nodeSize ≤ cfg.elemSize) (ha : 0 < cfg.alignment)
    (h : Pool.run cfg ops = some (s, live)) :
    (∀ b ∈ s.blocks, b % cfg.alignment = 0) ∧
    (cfg.alignment ∣ blockHeaderSize → cfg.alignment ∣ cfg.elemSize →
      (∀ p ∈ live, p % cfg.alignment = 0) ∧ (∀ p ∈ s.freeList, p % cfg.alignment = 0)) := by
  have hblocks : ∀ b ∈ s.blocks, cfg.alignment ∣ b := by
    have := Pool.runFrom_preserves cfg
      (fun st => ∀ b ∈ st.1.blocks, cfg.alignment ∣ b)
      (fun st op st1 => Pool.step_blocks_aligned cfg st st1 op)
      ops (Pool.fresh, []) (s, live) (by simp [Pool.fresh]) h
    exact this
  refine ⟨fun b hb => Nat.mod_eq_zero_of_dvd (hblocks b hb), fun hh hd => ?_⟩
  have hptrs := Pool.runFrom_preserves cfg
    (fun st => (∀ p ∈ st.1.freeList, cfg.alignment ∣ p) ∧ (∀ p ∈ st.2, cfg.alignment ∣ p))
    (fun st op st1 => Pool.step_ptrs_aligned cfg hh hd st st1 op)
    ops (Pool.fresh, []) (s, live) (by simp [Pool.fresh]) h
  exact ⟨fun p hp => Nat.mod_eq_zero_of_dvd (hptrs.2 p hp),
         fun p hp => Nat.mod_eq_zero_of_dvd (hptrs.1 p hp)⟩

/-- C2 witness for the amended claim: a 16-byte-element pool with alignment
16 (which divides both the header and the stride) returns the aligned
pointer 4112 on the trace alloc, and both its block start 4096 and the
remaining free slot 4128 are aligned. -/
theorem C2_alignment_amended_witness :
    ((∀ b ∈ (⟨[4096], [4128], 4144⟩ : Pool.State).blocks, b % (16 : Nat) = 0) ∧
      ((16 : Nat) ∣ blockHeaderSize → (16 : Nat) ∣ (⟨16, 16, 2⟩ : Config).elemSize →
        (∀ p ∈ ([4112] : List Nat), p % (16 : Nat) = 0) ∧
        (∀ p ∈ (⟨[4096], [4128], 4144⟩ : Pool.State).freeList, p % (16 : Nat) = 0))) ∧
    (4112 : Nat) % 16 = 0 := by
  have h := C2_alignment_amended ⟨16, 16, 2⟩ [Pool.Op.alloc] ⟨[4096], [4128], 4144⟩
    [4112] (by decide) (by decide) (by decide)
  exact ⟨h, (h.2 (by decide) (by decide)).1 4112 (by simp)⟩

/-- C3 (code bug): an element type of 1 byte — strictly smaller than the
8-byte free-list node — is not rejected: the pool's only compile-time
configuration check, `static_assert(capacity != 0)`, passes at the default
capacity `0x10000 / sizeof(T)`.  The heap request is padded to
`data_size = sizeof(_::Node)` bytes per slot, but `malloc`'s threading
loop iterates a `value_type*`, so its 8-byte `_::Node` writes land at
addresses only `sizeof(T) = 1` apart (4112, 4113, 4114, 4115 for the first
block of a capacity-4 pool): each link extends `nodeSize` bytes into the
following slots and is clobbered by the next write, exactly the corruption
the claimed rejection exists to rule out. -/
theorem C3_small_element_not_rejected :
    capacity_static_assert (0x10000 / 1) = true ∧
    (1 : Nat) < nodeSize ∧
    data_size 1 = nodeSize ∧
    Pool.freeNodes ⟨1, 16, 4⟩ 4 4096 = [4112, 4113, 4114, 4115] ∧
    4113 < 4112 + nodeSize := by
  decide

/-- C4 (code bug): for `n = 0x02000001`, one more than the largest class
capacity, every one of the 22 entries of `subblock_capacities` is smaller
than `n`, so the scan loop
`while (n > subblock_capacities[subblock_i]) ++subblock_i;` steps its index
past the last entry: its next iteration reads `subblock_capacities[22]`,
past the end of the 22-entry table, before any failure branch can run
(`none` marks the scan leaving the table). -/
theorem C4_scan_overruns_table :
    BlockAlloc.subblock_capacities.length = 22 ∧
    (∀ c ∈ BlockAlloc.subblock_capacities, c < 0x02000001) ∧
    BlockAlloc.allocate_class_index 0x02000001 = none := by
  decide

namespace FixedPool

theorem fixed_allocate_cons (s : State) (p : Nat) (rest : List Nat)
    (h : s.freeList = p :: rest) :
    allocate 1 s = some (⟨s.dataAddr, rest, s.sysNext⟩, p) := by
  simp [allocate, h]

theorem fixed_allocN_pops :
    ∀ (k : Nat) (s : State), k ≤ s.freeList.length →
      allocN k s = some (⟨s.dataAddr, s.freeList.drop k, s.sysNext⟩, s.freeList.take k) := by
  intro k
  induction k with
  | zero => intro s _; rfl
  | succ k ih =>
    intro s hk
    match hfl : s.freeList with
    | [] => rw [hfl] at hk; simp at hk
    | p :: rest =>
      rw [hfl] at hk
      have hpop := fixed_allocate_cons s p rest hfl
      have hrec := ih ⟨s.dataAddr, rest, s.sysNext⟩ (by simpa using Nat.succ_le_succ_iff.mp hk)
      simp only [allocN, hpop, hrec, hfl, List.drop_succ_cons, List.take_succ_cons]

end FixedPool

/-- C9: for an element type at least the 8-byte node (the spec's data-model
invariant, under which the threaded chain is what memory holds), the
fixed-capacity pool allocates its single block at construction time, sized
`data_size * capacity` bytes for exactly `capacity` slots; from a fresh
fixed pool exactly `capacity` `allocate` calls succeed, returning each
slot individually, with the system high-water mark (and the block pointer)
unchanged by every one of them — no further system allocation; one more
`allocate` on the exhausted pool fails its assert (the contract
violation); and its `deallocate` performs the same LIFO free-list push as
the growing pool, so `deallocate` then `allocate` returns the same
pointer. -/
theorem C9_fixed_pool (cfg : Config) (hnode : nodeSize ≤ cfg.elemSize)
    (hc : 0 < cfg.capacity) :
    (FixedPool.fresh cfg).freeList = FixedPool.slotAddrs cfg (FixedPool.fresh cfg).dataAddr ∧
    (FixedPool.fresh cfg).freeList.length = cfg.capacity ∧
    (FixedPool.fresh cfg).sysNext
      = (FixedPool.fresh cfg).dataAddr + cfg.dataSize * cfg.capacity ∧
    (∃ s, FixedPool.allocN cfg.capacity (FixedPool.fresh cfg)
        = some (s, (FixedPool.fresh cfg).freeList) ∧
      s.dataAddr = (FixedPool.fresh cfg).dataAddr ∧
      s.sysNext = (FixedPool.fresh cfg).sysNext ∧
      s.freeList = [] ∧
      FixedPool.allocate 1 s = none) ∧
    (∀ (s1 : FixedPool.State) (p n : Nat),
      (FixedPool.deallocate p n s1).freeList = p :: s1.freeList ∧
      FixedPool.allocate 1 (FixedPool.deallocate p n s1) = some (s1, p)) := by
  have hlen : (FixedPool.fresh cfg).freeList.length = cfg.capacity := by
    simp [FixedPool.fresh, FixedPool.slotAddrs]
  refine ⟨rfl, hlen, rfl, ?_, fun s1 p n => ⟨rfl, rfl⟩⟩
  have hp := FixedPool.fixed_allocN_pops cfg.capacity (FixedPool.fresh cfg) (by omega)
  refine ⟨⟨(FixedPool.fresh cfg).dataAddr, [], (FixedPool.fresh cfg).sysNext⟩, ?_, rfl, rfl, rfl, rfl⟩
  rw [hp, List.drop_eq_nil_of_le (by omega), List.take_of_length_le (by omega)]

/-- C9 witness: the theorem instantiated at an 8-byte-element, alignment-16,
capacity-3 fixed pool. -/
theorem C9_fixed_pool_witness :
    nodeSize ≤ (⟨8, 16, 3⟩ : Config).elemSize ∧
    0 < (⟨8, 16, 3⟩ : Config).capacity ∧
    ((FixedPool.fresh ⟨8, 16, 3⟩).freeList
        = FixedPool.slotAddrs ⟨8, 16, 3⟩ (FixedPool.fresh ⟨8, 16, 3⟩).dataAddr ∧
      (FixedPool.fresh ⟨8, 16, 3⟩).freeList.length = (⟨8, 16, 3⟩ : Config).capacity ∧
      (FixedPool.fresh ⟨8, 16, 3⟩).sysNext
        = (FixedPool.fresh ⟨8, 16, 3⟩).dataAddr
            + (⟨8, 16, 3⟩ : Config).dataSize * (⟨8, 16, 3⟩ : Config).capacity ∧
      (∃ s, FixedPool.allocN (⟨8, 16, 3⟩ : Config).capacity (FixedPool.fresh ⟨8, 16, 3⟩)
          = some (s, (FixedPool.fresh ⟨8, 16, 3⟩).freeList) ∧
        s.dataAddr = (FixedPool.fresh ⟨8, 16, 3⟩).dataAddr ∧
        s.sysNext = (FixedPool.fresh ⟨8, 16, 3⟩).sysNext ∧
        s.freeList = [] ∧
        FixedPool.allocate 1 s = none) ∧
      (∀ (s1 : FixedPool.State) (p n : Nat),
        (FixedPool.deallocate p n s1).freeList = p :: s1.freeList ∧
        FixedPool.allocate 1 (FixedPool.deallocate p n s1) = some (s1, p))) :=
  ⟨by decide, by decide, C9_fixed_pool ⟨8, 16, 3⟩ (by decide) (by decide)⟩

end CXCollections
